import Mathlib

/-!
Verification development for the Zyte SSR rendering core
(`src/index.ts` and `src/server.ts`).

Strings are modelled as `List Char`.  JavaScript values flowing through the
template evaluator are modelled by `JSVal`; a component module is an
association list from exported names to members (plain values or functions);
a function member returns `Option JSVal`, where `none` models a thrown
exception (or a rejected awaited promise).  The file system and dynamic
module loader are abstracted as explicit parameters, since the TypeScript
code only consults them through `existsSync` / `readFileSync` / `import`.

JavaScript numbers are modelled exactly by `JSNum`, an integer numerator
over a power-of-ten denominator (unnormalized, so that all arithmetic is
kernel-computable); every numeral a template can contain denotes such a
decimal fraction.  The recognizer `jsNumber` models
`!isNaN(Number(s))` / `Number(s)` for the forms occurring in templates:
optional-sign decimal integers, fractions and exponents, the
radix-prefixed integers `0x`/`0o`/`0b`, and the whitespace/empty forms.
The non-finite literal `Infinity` (not representable as a fraction) is the
one form left outside the model.
-/

namespace Zyte

/-- Left and right curly braces as characters. -/
def lbr : Char := '\x7b'

def rbr : Char := '\x7d'

/-- JavaScript whitespace characters relevant to `String.prototype.trim`
and the `\s` regex class (ASCII portion). -/
def isWS (c : Char) : Bool :=
  c = ' ' || c = '\t' || c = '\n' || c = '\r' || c = '\x0b' || c = '\x0c'

/-- Model of `String.prototype.trim`. -/
def trimChars (l : List Char) : List Char :=
  ((l.dropWhile isWS).reverse.dropWhile isWS).reverse

/-- Model of `String.prototype.split(sep)` for a single-character separator. -/
def splitOnChar (sep : Char) (l : List Char) : List (List Char) :=
  l.foldr
    (fun c acc =>
      match acc with
      | [] => [[c]]
      | a :: as => if c = sep then [] :: a :: as else (c :: a) :: as)
    [[]]

/-- Model of `String.prototype.split('||')`. -/
def splitOnPipes : List Char → List (List Char)
  | '|' :: '|' :: rest => [] :: splitOnPipes rest
  | c :: cs =>
    match splitOnPipes cs with
    | [] => [[c]]
    | a :: as => (c :: a) :: as
  | [] => [[]]

/-- Model of `String.prototype.includes(pat)`. -/
def containsSub (pat : List Char) : List Char → Bool
  | [] => pat.isEmpty
  | c :: cs => pat.isPrefixOf (c :: cs) || containsSub pat cs

/-- Test used by `evaluateExpression`: `expression.includes('||')`. -/
def containsPipes (l : List Char) : Bool :=
  containsSub ['|', '|'] l

/-- Lookup in a JavaScript `Map` / plain-object modelled as an
association list. -/
def mapGet {α : Type} : List (List Char × α) → List Char → Option α
  | [], _ => none
  | (k, v) :: rest, key => if k = key then some v else mapGet rest key

/-- Model of `Map.prototype.set`: overwrite an existing key in place,
otherwise append (insertion order). -/
def mapSet {α : Type} : List (List Char × α) → List Char → α → List (List Char × α)
  | [], key, v => [(key, v)]
  | (k, w) :: rest, key, v =>
    if k = key then (key, v) :: rest else (k, w) :: mapSet rest key v

/-- Model of `Map.prototype.delete`. -/
def mapErase {α : Type} : List (List Char × α) → List Char → List (List Char × α)
  | [], _ => []
  | (k, v) :: rest, key =>
    if k = key then mapErase rest key else (k, v) :: mapErase rest key

/-- Decimal digit test. -/
def isDigitCh (c : Char) : Bool := '0' ≤ c && c ≤ '9'

/-- Value of a run of decimal digits. -/
def digitsVal (l : List Char) : Nat :=
  l.foldl (fun a c => a * 10 + (c.toNat - 48)) 0

/-- Value of a run of digits in an arbitrary base (used for 0x/0o/0b). -/
def radixVal (base : Nat) (l : List Char) : Nat :=
  l.foldl
    (fun a c =>
      a * base +
        (if isDigitCh c then c.toNat - 48
         else if 'a' ≤ c && c ≤ 'z' then c.toNat - 87
         else c.toNat - 55))
    0

/-- Digit test for a radix-prefixed literal. -/
def isRadixDigit (base : Nat) (c : Char) : Bool :=
  if base = 16 then isDigitCh c || ('a' ≤ c && c ≤ 'f') || ('A' ≤ c && c ≤ 'F')
  else if base = 8 then '0' ≤ c && c ≤ '7'
  else c = '0' || c = '1'

/-- An exact finite JavaScript number: the fraction `num / den`, where
`den` is always a positive power of ten.  Left unnormalized so that every
operation reduces in the kernel; the evaluator never compares numbers, so
the representation redundancy is unobservable in the modelled code. -/
structure JSNum where
  num : Int
  den : Nat
  deriving DecidableEq

/-- Unsigned decimal mantissa with optional fraction and exponent:
the body of a JavaScript decimal number literal. -/
def parseDecimal (l : List Char) : Option JSNum :=
  let ip := l.takeWhile isDigitCh
  let r1 := l.dropWhile isDigitCh
  let fp := match r1 with
    | '.' :: t => t.takeWhile isDigitCh
    | _ => []
  let r2 := match r1 with
    | '.' :: t => t.dropWhile isDigitCh
    | _ => r1
  if ip.isEmpty && fp.isEmpty then none
  else
    let mant : JSNum :=
      ⟨(digitsVal ip : Int) * (10 : Int) ^ fp.length + (digitsVal fp : Int),
        (10 : Nat) ^ fp.length⟩
    match r2 with
    | [] => some mant
    | e :: t =>
      if e = 'e' || e = 'E' then
        let sgn : Int := match t with
          | '-' :: _ => -1
          | _ => 1
        let t2 := match t with
          | '+' :: u => u
          | '-' :: u => u
          | _ => t
        let ed := t2.takeWhile isDigitCh
        if ed.isEmpty || !(t2.dropWhile isDigitCh).isEmpty then none
        else if sgn = 1 then some ⟨mant.num * (10 : Int) ^ digitsVal ed, mant.den⟩
        else some ⟨mant.num, mant.den * (10 : Nat) ^ digitsVal ed⟩
      else none

/-- Model of `Number(s)` restricted to finite results: `none` models `NaN`.
Covers trimming, the empty string (0), signed decimals with fraction and
exponent, and unsigned `0x`/`0X`, `0o`/`0O`, `0b`/`0B` integers. -/
def jsNumber (s : List Char) : Option JSNum :=
  let t := trimChars s
  match t with
  | [] => some ⟨0, 1⟩
  | '0' :: x :: rest =>
    if x = 'x' || x = 'X' then
      if !rest.isEmpty && rest.all (isRadixDigit 16) then some ⟨radixVal 16 rest, 1⟩ else none
    else if x = 'o' || x = 'O' then
      if !rest.isEmpty && rest.all (isRadixDigit 8) then some ⟨radixVal 8 rest, 1⟩ else none
    else if x = 'b' || x = 'B' then
      if !rest.isEmpty && rest.all (isRadixDigit 2) then some ⟨radixVal 2 rest, 1⟩ else none
    else parseDecimal t
  | '+' :: r => parseDecimal r
  | '-' :: r => (parseDecimal r).map (fun q => ⟨-q.num, q.den⟩)
  | _ => parseDecimal t

/-- JavaScript values reachable by the template evaluator.  `vFunRef` is an
opaque marker for a function-valued module member (the evaluator never
calls through it; it only matters for truthiness and identity). -/
inductive JSVal where
  | vNull : JSVal
  | vUndefined : JSVal
  | vBool : Bool → JSVal
  | vNum : JSNum → JSVal
  | vStr : List Char → JSVal
  | vObj : List (List Char × JSVal) → JSVal
  | vFunRef : List Char → JSVal

/-- Test for the JavaScript `undefined` value. -/
def isUndef : JSVal → Bool
  | JSVal.vUndefined => true
  | _ => false

/-- JavaScript truthiness (`if (value)`): `null`, `undefined`, `false`,
`0` and the empty string are falsy. -/
def truthy : JSVal → Bool
  | JSVal.vNull => false
  | JSVal.vUndefined => false
  | JSVal.vBool b => b
  | JSVal.vNum q => q.num ≠ 0
  | JSVal.vStr s => !s.isEmpty
  | JSVal.vObj _ => true
  | JSVal.vFunRef _ => true

/-- Per-request context (`SSRContext` in `src/index.ts`): string-to-string
records modelled as association lists. -/
structure SSRContext where
  params : List (List Char × List Char)
  query : List (List Char × List Char)
  headers : List (List Char × List Char)

/-- The context `{ params: {}, query: {}, headers: {} }`. -/
def emptyContext : SSRContext := ⟨[], [], []⟩

/-- One exported member of a dynamically loaded component module: a plain
value, or a function receiving parsed arguments plus the context, whose
`none` result models a thrown exception / rejected promise. -/
inductive Member where
  | val : JSVal → Member
  | fn : (List JSVal → SSRContext → Option JSVal) → Member

/-- A component module: exported name to member. -/
abbrev Component := List (List Char × Member)

/-- The empty object `{}` passed as component by `parseTemplateArgs`. -/
def emptyComponent : Component := []

/-- Value of `component[name]`, where a missing export reads as
`undefined` and a function export is an opaque function value. -/
def memberVal (comp : Component) (k : List Char) : JSVal :=
  match mapGet comp k with
  | some (Member.val v) => v
  | some (Member.fn _) => JSVal.vFunRef k
  | none => JSVal.vUndefined

/-- The loop of `evaluateSingleExpression`'s nested-property walk, after the
first segment has been resolved on the component: for each remaining part,
descend while the current value is a non-null object with that property,
else produce `undefined`. -/
def walkProps : JSVal → List (List Char) → JSVal
  | v, [] => v
  | JSVal.vObj fields, p :: ps =>
    let nxt := (mapGet fields p).getD JSVal.vUndefined
    if isUndef nxt then JSVal.vUndefined else walkProps nxt ps
  | _, _ :: _ => JSVal.vUndefined

/-- Test for a double- or single-quoted literal:
`(arg.startsWith('"') && arg.endsWith('"')) || (single-quote variant)`. -/
def isQuotedLit (l : List Char) : Bool :=
  match l with
  | [] => false
  | c :: _ =>
    (c = '"' && l.getLast? = some '"') || (c = '\'' && l.getLast? = some '\'')

/-- Model of `arg.slice(1, -1)`. -/
def innerLit (l : List Char) : List Char :=
  (l.drop 1).take (l.length - 2)

/-- Translation of `evaluateSingleExpression` from `src/index.ts`:
reserved context namespaces, quoted strings, numbers, booleans,
`null`/`undefined`, direct component access, then the dotted walk. -/
def evaluateSingleExpression (expression : List Char) (comp : Component)
    (ctx : SSRContext) : JSVal :=
  if ("query.".toList).isPrefixOf expression then
    match mapGet ctx.query (expression.drop 6) with
    | some s => JSVal.vStr s
    | none => JSVal.vUndefined
  else if ("params.".toList).isPrefixOf expression then
    match mapGet ctx.params (expression.drop 7) with
    | some s => JSVal.vStr s
    | none => JSVal.vUndefined
  else if ("headers.".toList).isPrefixOf expression then
    match mapGet ctx.headers (expression.drop 8) with
    | some s => JSVal.vStr s
    | none => JSVal.vUndefined
  else if isQuotedLit expression then JSVal.vStr (innerLit expression)
  else
    match jsNumber expression with
    | some q => JSVal.vNum q
    | none =>
      if expression = ("true".toList) then JSVal.vBool true
      else if expression = ("false".toList) then JSVal.vBool false
      else if expression = ("null".toList) then JSVal.vNull
      else if expression = ("undefined".toList) then JSVal.vUndefined
      else
        let direct := memberVal comp expression
        if !(isUndef direct) then direct
        else
          match splitOnChar '.' expression with
          | [] => JSVal.vUndefined
          | p :: ps =>
            let first := memberVal comp p
            if isUndef first then JSVal.vUndefined else walkProps first ps

/-- Translation of `evaluateExpression` from `src/index.ts`: split a
`||` chain, return the first truthy operand's value, else the last
operand's value. -/
def evaluateExpression (expression : List Char) (comp : Component)
    (ctx : SSRContext) : JSVal :=
  if containsPipes expression then
    let parts := (splitOnPipes expression).map trimChars
    match parts.find? (fun p => truthy (evaluateSingleExpression p comp ctx)) with
    | some p => evaluateSingleExpression p comp ctx
    | none => evaluateSingleExpression (parts.getLastD []) comp ctx
  else evaluateSingleExpression expression comp ctx

/-- Classification of one comma-separated argument token, from
`parseTemplateArgs` in `src/index.ts`: trim, then quoted string, number,
booleans, `null`/`undefined`, reserved-namespace path (evaluated with an
empty component), else a bare string. -/
def classifyArg (ctx : SSRContext) (arg0 : List Char) : JSVal :=
  let arg := trimChars arg0
  if isQuotedLit arg then JSVal.vStr (innerLit arg)
  else
    match jsNumber arg with
    | some q => JSVal.vNum q
    | none =>
      if arg = ("true".toList) then JSVal.vBool true
      else if arg = ("false".toList) then JSVal.vBool false
      else if arg = ("null".toList) then JSVal.vNull
      else if arg = ("undefined".toList) then JSVal.vUndefined
      else if ("query.".toList).isPrefixOf arg || ("params.".toList).isPrefixOf arg
          || ("headers.".toList).isPrefixOf arg then
        evaluateExpression arg emptyComponent ctx
      else JSVal.vStr arg

/-- Translation of `parseTemplateArgs` from `src/index.ts`: an all-blank
argument string yields no arguments, otherwise split on every comma and
classify each token. -/
def parseTemplateArgs (argsStr : List Char) (ctx : SSRContext) : List JSVal :=
  if (trimChars argsStr).isEmpty then []
  else (splitOnChar ',' argsStr).map (classifyArg ctx)

/-- String conversion of a value appended to the rendered output
(`result += value` after the `?? ''` coalescing).  Number formatting is
decimal for integers; the stringification of a function value depends on
its source text and is modelled by an opaque placeholder. -/
def toJSString : JSVal → List Char
  | JSVal.vNull => "null".toList
  | JSVal.vUndefined => "undefined".toList
  | JSVal.vBool true => "true".toList
  | JSVal.vBool false => "false".toList
  | JSVal.vStr s => s
  | JSVal.vNum q =>
    if q.den = 1 then
      (if q.num < 0 then '-' :: (Nat.toDigits 10 q.num.natAbs) else Nat.toDigits 10 q.num.natAbs)
    else (Nat.toDigits 10 q.num.natAbs) ++ '/' :: (Nat.toDigits 10 q.den)
  | JSVal.vObj _ => "[object Object]".toList
  | JSVal.vFunRef n => ("function ".toList) ++ n

/-- Model of `result += (value ?? '')`: `null` and `undefined` coalesce to
the empty string. -/
def coalesceStr (v : JSVal) : List Char :=
  match v with
  | JSVal.vNull => []
  | JSVal.vUndefined => []
  | _ => toJSString v

/-- The word-character class `\w` of the function-call pattern. -/
def isWordChar (c : Char) : Bool :=
  ('a' ≤ c && c ≤ 'z') || ('A' ≤ c && c ≤ 'Z') || isDigitCh c || c = '_'

/-- Model of matching `^(\w+)\s*\(([^)]*)\)$` against a trimmed
expression: a nonempty identifier, optional whitespace, and a
parenthesized argument text that may not contain a closing parenthesis,
ending the string. -/
def funcMatch (expr : List Char) : Option (List Char × List Char) :=
  let name := expr.takeWhile isWordChar
  if name.isEmpty then none
  else
    match (expr.dropWhile isWordChar).dropWhile isWS with
    | '(' :: rest =>
      let args := rest.takeWhile (fun c => c ≠ ')')
      match rest.dropWhile (fun c => c ≠ ')') with
      | [')'] => some (name, args)
      | _ => none
    | _ => none

/-- The literal matched text `match[0]` of one expression unit. -/
def matchZero (e : List Char) : List Char :=
  lbr :: lbr :: (e ++ [rbr, rbr])

/-- Evaluation of one `\x7b\x7b ... \x7d\x7d` unit with raw inner text `e`,
from the body of the `while` loop of `processTemplate`: a recognized
function call is invoked with parsed arguments plus the context and a
thrown exception (or a missing/non-function export) falls back to the
literal matched text; any other expression goes through
`evaluateExpression`; `null`/`undefined` results coalesce to the empty
string. -/
def evalUnit (comp : Component) (ctx : SSRContext) (e : List Char) : List Char :=
  let expression := trimChars e
  match funcMatch expression with
  | some (funcName, argsStr) =>
    match mapGet comp funcName with
    | some (Member.fn f) =>
      let args := if argsStr.isEmpty then [] else parseTemplateArgs argsStr ctx
      match f args ctx with
      | some v => coalesceStr v
      | none => matchZero e
    | _ => matchZero e
  | none => coalesceStr (evaluateExpression expression comp ctx)

/-- One attempted match of the unit regex at a position just after
an opening `\x7b\x7b`: the inner text is the maximal nonempty run free of
closing braces and must be followed by `\x7d\x7d`; on success, return the
inner text and the remainder after the match. -/
def scanExprAt (rest : List Char) : Option (List Char × List Char) :=
  let e := rest.takeWhile (fun c => c ≠ rbr)
  match e, rest.dropWhile (fun c => c ≠ rbr) with
  | _ :: _, _ :: b2 :: tail => if b2 = rbr then some (e, tail) else none
  | _, _ => none

/-- Fuelled translation of the `processTemplate` scanning loop: text
outside expression units is copied verbatim; at each `\x7b\x7b` the regex
either matches a unit (which is evaluated) or the scan resumes one
character later.  The fuel only serves termination; `processTemplate`
supplies `html.length`, which is always sufficient. -/
def processTemplateF (comp : Component) (ctx : SSRContext) :
    Nat → List Char → List Char
  | 0, l => l
  | fuel + 1, '\x7b' :: '\x7b' :: rest =>
    match scanExprAt rest with
    | some (e, tail) => evalUnit comp ctx e ++ processTemplateF comp ctx fuel tail
    | none => '\x7b' :: processTemplateF comp ctx fuel ('\x7b' :: rest)
  | fuel + 1, c :: cs => c :: processTemplateF comp ctx fuel cs
  | _ + 1, [] => []

/-- Translation of `processTemplate` from `src/index.ts`. -/
def processTemplate (comp : Component) (ctx : SSRContext) (html : List Char) :
    List Char :=
  processTemplateF comp ctx html.length html

/-- One discovered route (`RouteConfig` in `src/index.ts`; the optional
`layout` field is never set or read by the core and is omitted). -/
structure RouteConfig where
  path : List Char
  component : List Char
  deriving DecidableEq

/-- The route table: URL path to `RouteConfig`, in insertion order. -/
abbrev RMap := List (List Char × RouteConfig)

/-- Model of `path.replace(/\\/g, ...)`-free POSIX `join(a, b)` for a
relative `b`: the code only joins normalized segments, so no `.`/`..`
normalization is needed. -/
def joinP (a b : List Char) : List Char :=
  if a.isEmpty then b else if b.isEmpty then a else a ++ '/' :: b

/-- The basename of a path: the part after the last slash. -/
def basenameOf (p : List Char) : List Char :=
  (p.reverse.takeWhile (fun c => c ≠ '/')).reverse

/-- Model of Node's `extname(p)`: from the last dot of the basename to the
end, empty when the basename has no dot or only a leading dot. -/
def extnameOf (p : List Char) : List Char :=
  let b := basenameOf p
  let revTail := b.reverse.takeWhile (fun c => c ≠ '.')
  if revTail.length = b.length then []
  else if revTail.length + 1 = b.length then []
  else '.' :: revTail.reverse

/-- Model of `String.prototype.replace(pat, rep)` for a plain-string
pattern: replace the first occurrence only. -/
def replaceFirst (pat rep : List Char) : List Char → List Char
  | [] => if pat.isEmpty then rep else []
  | c :: cs =>
    if pat.isPrefixOf (c :: cs) then rep ++ (c :: cs).drop pat.length
    else c :: replaceFirst pat rep cs

/-- Template path for a component path, from `render` in `src/index.ts`:
`componentPath.replace(extname(componentPath), '.html')` when an extension
exists (a first-occurrence string replacement), else append `.html`. -/
def htmlPathFor (componentPath : List Char) : List Char :=
  let ext := extnameOf componentPath
  if ext.isEmpty then componentPath ++ (".html".toList)
  else replaceFirst ext (".html".toList) componentPath

/-- Stylesheet path for a template path:
`htmlPath.replace(/\.html$/, '.css')`. -/
def cssPathOf (htmlPath : List Char) : List Char :=
  if (".html".toList).isSuffixOf htmlPath then
    htmlPath.take (htmlPath.length - 5) ++ (".css".toList)
  else htmlPath

/-- Model of Node's `relative(base, p)` for the only case the renderer
reaches: `p` lies strictly inside `base`. -/
def relPath (base p : List Char) : List Char :=
  if (base ++ ['/']).isPrefixOf p then p.drop (base.length + 1) else p

/-- The stylesheet link injected before the closing head marker for the
app component. -/
def appCssLink : List Char :=
  ("<link rel=\"stylesheet\" href=\"/app/app.css\">\n</head>").toList

/-- The stylesheet link injected before the closing head marker for a
route, given the CSS path relative to `src`. -/
def cssLinkFor (rel : List Char) : List Char :=
  ("<link rel=\"stylesheet\" href=\"/").toList ++ rel ++ ("\">\n</head>").toList

/-- Translation of `findRoute` from `src/index.ts`: strip one leading
slash, direct lookup, then the `home`/`index` fallback for the root-like
paths. -/
def findRoute (routes : RMap) (path : List Char) : Option RouteConfig :=
  let normalizedPath := if path.head? = some '/' then path.drop 1 else path
  match mapGet routes normalizedPath with
  | some r => some r
  | none =>
    if normalizedPath.isEmpty || normalizedPath = ("index".toList) then
      match mapGet routes ("home".toList) with
      | some r => some r
      | none => mapGet routes ("index".toList)
    else none

/-- The fixed 404 document returned by `render404` in `src/index.ts`,
verbatim (braces and apostrophes written as character escapes). -/
def render404Doc : List Char :=
  ("\n    <!DOCTYPE html>\n    <html>\n    <head>\n        <title>404 - Page Not Found</title>\n        <style>\n          body \x7b font-family: -apple-system, BlinkMacSystemFont, \x27Segoe UI\x27, Roboto, sans-serif; padding: 2rem; text-align: center; \x7d\n          h1 \x7b color: #dc2626; \x7d\n        </style>\n    </head>\n    <body>\n        <h1>404 - Page Not Found</h1>\n        <p>The requested page could not be found.</p>\n        <a href=\"/\">Go back home</a>\n    </body>\n    </html>\n    ").toList

/-- The file system as the renderer sees it: `existsSync` and
`readFileSync`. -/
structure FS where
  fexists : List Char → Bool
  fread : List Char → List Char

/-- The dynamic module loader: importing a component path yields a module
or throws (an `Except.error` carrying the thrown message).  The
cache-defeating `?t=` suffix of the import specifier does not change which
module is designated and is abstracted away. -/
abbrev Loader := List Char → Except (List Char) Component

/-- Translation of `loadComponent` from `src/index.ts`. -/
def loadComponent (loader : Loader) (componentPath : List Char) :
    Except (List Char) Component :=
  if extnameOf componentPath = (".ts".toList) || extnameOf componentPath = (".js".toList) then
    loader componentPath
  else Except.error (("Unsupported component type: ").toList ++ extnameOf componentPath)

/-- Translation of `render` from `src/index.ts`: the root path is
special-cased to the app component; otherwise look up the route (missing
route renders the 404 document), resolve the template by the
extension-replacement rule (missing template throws), inject the
stylesheet link when a CSS file exists, load the module and process the
template.  `Except.error` models a thrown `Error` with its message. -/
def render (fs : FS) (loader : Loader) (baseDir : List Char) (routes : RMap)
    (path : List Char) (ctx : SSRContext) : Except (List Char) (List Char) :=
  if path = ("/".toList) ∨ path.isEmpty then
    let appComponentPath := joinP baseDir ("src/app/app.ts".toList)
    let appHtmlPath := joinP baseDir ("src/app/app.html".toList)
    if !(fs.fexists appHtmlPath) then
      Except.error (("HTML template not found for app component: src/app/app.html").toList)
    else
      let html0 := fs.fread appHtmlPath
      let appCssPath := joinP baseDir ("src/app/app.css".toList)
      let html1 := if fs.fexists appCssPath then
          replaceFirst ("</head>".toList) appCssLink html0
        else html0
      match loadComponent loader appComponentPath with
      | Except.error e => Except.error e
      | Except.ok comp => Except.ok (processTemplate comp ctx html1)
  else
    match findRoute routes path with
    | none => Except.ok render404Doc
    | some route =>
      let componentPath := joinP baseDir route.component
      let htmlPath := htmlPathFor componentPath
      if !(fs.fexists htmlPath) then
        Except.error (("HTML template not found for route: ").toList ++ route.component)
      else
        let html0 := fs.fread htmlPath
        let cssPath := cssPathOf htmlPath
        let html1 := if fs.fexists cssPath then
            replaceFirst ("</head>".toList)
              (cssLinkFor (relPath (joinP baseDir ("src".toList)) cssPath)) html0
          else html0
        match loadComponent loader componentPath with
        | Except.error e => Except.error e
        | Except.ok comp => Except.ok (processTemplate comp ctx html1)

/-- A directory tree as `scanRoutesDirectory` observes it through
`readdirSync`/`statSync`.  A `broken` node is a directory entry whose
listing (`readdirSync(fullPath)`) throws a read error; `statSync` on it
still reports a directory. -/
inductive FTree where
  | file : List Char → FTree
  | broken : List Char → FTree
  | dir : List Char → List FTree → FTree

/-- The entry name as returned by `readdirSync` of the parent. -/
def FTree.nameOf : FTree → List Char
  | FTree.file n => n
  | FTree.broken n => n
  | FTree.dir n _ => n

/-- The route-file name filter of `scanRoutesDirectory`:
`(endsWith('.ts') || endsWith('.js')) && !endsWith('.client.ts')`,
applied to every entry name of the candidate directory (files and
subdirectories alike, as `readdirSync` returns bare names). -/
def isRouteFileName (f : List Char) : Bool :=
  ((".ts".toList).isSuffixOf f || (".js".toList).isSuffixOf f)
    && !((".client.ts".toList).isSuffixOf f)

mutual
/-- Processing of one directory entry from the loop body of
`scanRoutesDirectory` in `src/index.ts`.  `relDir` is the scanned
directory's path relative to `baseDir` (so `relative(baseDir, fullPath)`
is `relDir/name`), `pref` the accumulated URL prefix.  A non-directory
entry is skipped; a directory entry whose listing contains at least one
route-file name registers a route for the first such name, and is then
recursively scanned.  A `broken` entry never reaches this function: its
listing throws in the caller's loop (see `scanEntries`). -/
def scanEntry : FTree → List Char → List Char → RMap → RMap
  | FTree.file _, _, _, routes => routes
  | FTree.broken _, _, _, routes => routes
  | FTree.dir nm children, relDir, pref, routes =>
    let fullRel := joinP relDir nm
    let routeFiles := (children.map FTree.nameOf).filter isRouteFileName
    let routePath := if pref.isEmpty then nm else pref ++ '/' :: nm
    let routes1 := match routeFiles with
      | [] => routes
      | f :: _ => mapSet routes routePath ⟨routePath, joinP fullRel f⟩
    scanEntries children fullRel routePath routes1

/-- The `for` loop of `scanRoutesDirectory` over the listed entries of one
directory, together with its surrounding `try`/`catch`.  Listing a
`broken` entry (`readdirSync(fullPath)` at the `routeFiles` computation)
throws inside this invocation's `try` block: the catch logs and returns
the routes collected so far, abandoning the remaining entries of this
directory, while the caller scanning the parent directory continues
unharmed. -/
def scanEntries : List FTree → List Char → List Char → RMap → RMap
  | [], _, _, routes => routes
  | FTree.broken _ :: _, _, _, routes => routes
  | t :: rest, relDir, pref, routes =>
    scanEntries rest relDir pref (scanEntry t relDir pref routes)
end

/-- Translation of `scanRoutesDirectory` from `src/index.ts`, applied to
a directory node: list its entries and process them in order. -/
def scanRoutesDirectory (t : FTree) (relDir pref : List Char) (routes : RMap) :
    RMap :=
  match t with
  | FTree.dir _ children => scanEntries children relDir pref routes
  | _ => routes

/-- One memoized rendered page in the server's `ssrCache`. -/
structure CacheEntry where
  content : List Char
  timestamp : Int
  deriving DecidableEq

/-- The response cache: path to entry. -/
abbrev Cache := List (List Char × CacheEntry)

/-- The cache lookup of the request handler in `src/server.ts`: a present
entry is served while `now - timestamp <= maxAge`; a stale entry is
deleted and the lookup reports a miss.  Returns the looked-up content and
the cache after the lookup. -/
def cacheGet (c : Cache) (maxAge now : Int) (path : List Char) :
    Option (List Char) × Cache :=
  match mapGet c path with
  | none => (none, c)
  | some e =>
    if now - e.timestamp > maxAge then (none, mapErase c path)
    else (some e.content, c)

/-- The cache population of the request handler:
`ssrCache.set(path, { content, timestamp: Date.now() })`. -/
def cacheSet (c : Cache) (path content : List Char) (now : Int) : Cache :=
  mapSet c path ⟨content, now⟩

/-- Fold of the cache-warming loop of `startServer` in `src/server.ts`
over a given path list: render each path with an empty context, apply the
post-processing (`injectClientScript` and `injectLazyLoading`, abstracted
as `post`) and store the result; a thrown render error is swallowed and
the path skipped. -/
def warmCache (rend : List Char → SSRContext → Except (List Char) (List Char))
    (post : List Char → List Char) (paths : List (List Char)) (now : Int)
    (cache : Cache) : Cache :=
  paths.foldl
    (fun c path =>
      match rend path emptyContext with
      | Except.ok html => cacheSet c path (post html) now
      | Except.error _ => c)
    cache

/-- The path list the warming loop iterates: the discovered routes' keys,
with the root path appended when absent (`routesToCache.set('/', ...)`
inserts at the end of the iteration order). -/
def routesToCachePaths (routes : RMap) : List (List Char) :=
  if (mapGet routes ("/".toList)).isSome then routes.map Prod.fst
  else routes.map Prod.fst ++ [("/".toList)]

/-- The complete cache-warming pass of `startServer`. -/
def cacheWarm (rend : List Char → SSRContext → Except (List Char) (List Char))
    (post : List Char → List Char) (routes : RMap) (now : Int)
    (cache : Cache) : Cache :=
  warmCache rend post (routesToCachePaths routes) now cache

/-! Helper lemmas about the association-list model of `Map`. -/

lemma mapGet_mapSet_self {α : Type} (m : List (List Char × α)) (k : List Char) (v : α) :
    mapGet (mapSet m k v) k = some v := by
  induction m with
  | nil => simp [mapGet, mapSet]
  | cons p rest ih =>
    obtain ⟨k', w⟩ := p
    by_cases h : k' = k
    · simp [mapGet, mapSet, h]
    · simp [mapGet, mapSet, h, ih]

lemma mapGet_mapErase_self {α : Type} (m : List (List Char × α)) (k : List Char) :
    mapGet (mapErase m k) k = none := by
  induction m with
  | nil => simp [mapGet, mapErase]
  | cons p rest ih =>
    obtain ⟨k', w⟩ := p
    by_cases h : k' = k
    · simp [mapErase, h, ih]
    · simp [mapGet, mapErase, h, ih]

lemma mapSet_length_le {α : Type} (m : List (List Char × α)) (k : List Char) (v : α) :
    (mapSet m k v).length ≤ m.length + 1 := by
  induction m with
  | nil => simp [mapSet]
  | cons p rest ih =>
    obtain ⟨k', w⟩ := p
    by_cases h : k' = k
    · simp [mapSet, h]
    · simpa [mapSet, h] using Nat.succ_le_succ ih

lemma mapSet_mem {α : Type} (m : List (List Char × α)) (k : List Char) (v : α)
    (p : List Char × α) (hp : p ∈ mapSet m k v) : p = (k, v) ∨ p ∈ m := by
  induction m with
  | nil => simpa [mapSet] using hp
  | cons q rest ih =>
    obtain ⟨k', w⟩ := q
    by_cases h : k' = k
    · rcases (by simpa [mapSet, h] using hp) with h1 | h1
      · exact Or.inl h1
      · exact Or.inr (List.mem_cons_of_mem _ h1)
    · rcases (by simpa [mapSet, h] using hp) with h1 | h1
      · exact Or.inr (by simp [h1])
      · rcases ih h1 with h2 | h2
        · exact Or.inl h2
        · exact Or.inr (List.mem_cons_of_mem _ h2)

/-- C5: a cache lookup returns the stored content exactly when an entry is
present and `now - createdAt <= maxAge`; a present-but-stale entry is
evicted and reported as a miss, and a subsequent lookup on the resulting
cache also misses without resurrecting the entry; `set` stores with the
given timestamp, unconditionally overwriting, so a `set` immediately
followed by a `get` (at the same instant, for a nonnegative `maxAge`)
returns the stored content. -/
theorem cache_get_set_spec (c : Cache) (maxAge now : Int) (path content : List Char) :
    (∀ e : CacheEntry, mapGet c path = some e → now - e.timestamp ≤ maxAge →
      cacheGet c maxAge now path = (some e.content, c))
    ∧ (∀ e : CacheEntry, mapGet c path = some e → now - e.timestamp > maxAge →
      cacheGet c maxAge now path = (none, mapErase c path)
        ∧ cacheGet (mapErase c path) maxAge now path = (none, mapErase c path))
    ∧ (mapGet c path = none → cacheGet c maxAge now path = (none, c))
    ∧ mapGet (cacheSet c path content now) path = some ⟨content, now⟩
    ∧ (0 ≤ maxAge →
      cacheGet (cacheSet c path content now) maxAge now path
        = (some content, cacheSet c path content now)) := by
  refine ⟨?_, ?_, ?_, ?_, ?_⟩
  · intro e he hfresh
    simp [cacheGet, he, not_lt.mpr hfresh]
  · intro e he hstale
    constructor
    · simp [cacheGet, he, hstale]
    · simp [cacheGet, mapGet_mapErase_self]
  · intro he
    simp [cacheGet, he]
  · exact mapGet_mapSet_self c path ⟨content, now⟩
  · intro hge
    have hget := mapGet_mapSet_self c path (⟨content, now⟩ : CacheEntry)
    have hnotstale : ¬ (now - now > maxAge) := by omega
    simp [cacheGet, cacheSet, hget, hnotstale]
    omega

/-- Witness for `cache_get_set_spec` at a concrete cache. -/
theorem cache_get_set_spec_witness :
    mapGet ([((("p").toList), (⟨("h").toList, 0⟩ : CacheEntry))])
        (("p").toList) = some ⟨("h").toList, 0⟩
    ∧ ((10 : Int) - 0 > 5)
    ∧ cacheGet ([((("p").toList), (⟨("h").toList, 0⟩ : CacheEntry))]) 5 10 (("p").toList)
        = (none, [])
    ∧ ((0 : Int) ≤ 5)
    ∧ cacheGet (cacheSet [] (("p").toList) (("h").toList) 10) 5 10 (("p").toList)
        = (some (("h").toList), cacheSet [] (("p").toList) (("h").toList) 10) := by
  have h1 := (cache_get_set_spec ([((("p").toList), (⟨("h").toList, 0⟩ : CacheEntry))])
      5 10 (("p").toList) (("h").toList)).2.1 ⟨("h").toList, 0⟩ (by decide) (by decide)
  have h2 := (cache_get_set_spec ([] : Cache) 5 10 (("p").toList) (("h").toList)).2.2.2.2
      (by decide)
  refine ⟨by decide, by decide, ?_, by decide, h2⟩
  have := h1.1
  simpa using this

/-! Helper lemmas for the cache-warming loop. -/

lemma warmCache_length_le (rend : List Char → SSRContext → Except (List Char) (List Char))
    (post : List Char → List Char) (paths : List (List Char)) (now : Int) (c : Cache) :
    (warmCache rend post paths now c).length ≤ c.length + paths.length := by
  induction paths generalizing c with
  | nil => simp [warmCache]
  | cons p rest ih =>
    have hstep : (warmCache rend post (p :: rest) now c)
        = warmCache rend post rest now
            (match rend p emptyContext with
             | Except.ok html => cacheSet c p (post html) now
             | Except.error _ => c) := rfl
    rw [hstep]
    cases h : rend p emptyContext with
    | ok html =>
      calc (warmCache rend post rest now (cacheSet c p (post html) now)).length
          ≤ (cacheSet c p (post html) now).length + rest.length := ih _
        _ ≤ (c.length + 1) + rest.length :=
            Nat.add_le_add_right (mapSet_length_le c p ⟨post html, now⟩) _
        _ = c.length + (p :: rest).length := by simp only [List.length_cons]; omega
    | error msg =>
      calc (warmCache rend post rest now c).length
          ≤ c.length + rest.length := ih _
        _ ≤ c.length + (p :: rest).length := by simp only [List.length_cons]; omega

lemma warmCache_all_fail (rend : List Char → SSRContext → Except (List Char) (List Char))
    (post : List Char → List Char) (paths : List (List Char)) (now : Int) (c : Cache)
    (hfail : ∀ p ∈ paths, ∃ msg, rend p emptyContext = Except.error msg) :
    warmCache rend post paths now c = c := by
  induction paths generalizing c with
  | nil => rfl
  | cons p rest ih =>
    obtain ⟨msg, hmsg⟩ := hfail p (by simp)
    have hstep : (warmCache rend post (p :: rest) now c)
        = warmCache rend post rest now
            (match rend p emptyContext with
             | Except.ok html => cacheSet c p (post html) now
             | Except.error _ => c) := rfl
    rw [hstep, hmsg]
    exact ih c (fun q hq => hfail q (List.mem_cons_of_mem p hq))

lemma routesToCachePaths_length (routes : RMap) :
    (routesToCachePaths routes).length ≤ routes.length + 1 := by
  unfold routesToCachePaths
  split
  · simp
  · simp

/-- C7 (amended): the warming pass renders each candidate path with the
empty context, stores successes, swallows every failure (a run in which
every render throws leaves the cache untouched), and populates at most
N + 1 entries from N discovered routes — the extra one being the root
path `/`, which the loop always appends to the candidates. -/
theorem warm_bounded_and_swallows
    (rend : List Char → SSRContext → Except (List Char) (List Char))
    (post : List Char → List Char) (routes : RMap) (now : Int) :
    (cacheWarm rend post routes now []).length ≤ routes.length + 1
    ∧ ((∀ p ctx, ∃ msg, rend p ctx = Except.error msg) →
        ∀ c : Cache, cacheWarm rend post routes now c = c) := by
  constructor
  · calc (cacheWarm rend post routes now []).length
        ≤ ([] : Cache).length + (routesToCachePaths routes).length :=
          warmCache_length_le rend post _ now []
      _ ≤ routes.length + 1 := by
          simpa using routesToCachePaths_length routes
  · intro hfail c
    exact warmCache_all_fail rend post _ now c (fun p _ => hfail p emptyContext)

/-- Witness for `warm_bounded_and_swallows` at a concrete failing renderer. -/
theorem warm_bounded_and_swallows_witness :
    (cacheWarm (fun _ _ => Except.error (("boom").toList)) id
        [((("about").toList), ⟨("about").toList, ("src/routes/about/about.ts").toList⟩)]
        0 []).length ≤ 2
    ∧ cacheWarm (fun _ _ => Except.error (("boom").toList)) id
        [((("about").toList), ⟨("about").toList, ("src/routes/about/about.ts").toList⟩)]
        0 [] = [] := by
  have h := warm_bounded_and_swallows (fun _ _ => Except.error (("boom").toList)) id
      [((("about").toList), ⟨("about").toList, ("src/routes/about/about.ts").toList⟩)] 0
  exact ⟨by simpa using h.1, h.2 (fun p ctx => ⟨("boom").toList, rfl⟩) []⟩

/-- C7 (counterexample): with one discovered route and every render
succeeding, the warming pass populates two cache entries — more than the
number N = 1 of discoverable routes the claim allows, because the root
path is always warmed in addition. -/
theorem warm_at_most_n_false :
    ¬ ((cacheWarm (fun _ _ => Except.ok (("x").toList)) id
        [((("about").toList), ⟨("about").toList, ("src/routes/about/about.ts").toList⟩)]
        0 []).length
      ≤ ([((("about").toList),
            (⟨("about").toList, ("src/routes/about/about.ts").toList⟩ : RouteConfig))]).length) := by
  decide

/-- C2: for every non-root path with no matching route — after the
leading-slash strip and the `home`/`index` fallback, i.e. whenever
`findRoute` comes up empty — `render` returns normally (no thrown error,
for every file system, loader, base directory and context) with the fixed
404 document, which contains the indicator string `404`. -/
theorem render_unmatched_404 (fs : FS) (loader : Loader) (baseDir : List Char)
    (routes : RMap) (path : List Char) (ctx : SSRContext)
    (hroot : path ≠ (("/").toList)) (hempty : ¬ path.isEmpty)
    (hmiss : findRoute routes path = none) :
    render fs loader baseDir routes path ctx = Except.ok render404Doc
    ∧ containsSub (("404").toList) render404Doc = true := by
  constructor
  · unfold render
    rw [if_neg, hmiss]
    push_neg
    exact ⟨hroot, by simpa using hempty⟩
  · decide

/-- Witness for `render_unmatched_404` at a concrete unmatched path. -/
theorem render_unmatched_404_witness :
    (("/nonexistent").toList ≠ ("/").toList)
    ∧ ¬ (("/nonexistent").toList).isEmpty
    ∧ findRoute
        [((("about").toList),
          (⟨("about").toList, ("src/routes/about/about.ts").toList⟩ : RouteConfig))]
        (("/nonexistent").toList) = none
    ∧ render ⟨fun _ => false, fun _ => []⟩ (fun _ => Except.ok [])
        [] [((("about").toList),
          (⟨("about").toList, ("src/routes/about/about.ts").toList⟩ : RouteConfig))]
        (("/nonexistent").toList) emptyContext = Except.ok render404Doc := by
  refine ⟨by decide, by decide, by decide, ?_⟩
  exact (render_unmatched_404 ⟨fun _ => false, fun _ => []⟩ (fun _ => Except.ok []) []
    [((("about").toList),
      (⟨("about").toList, ("src/routes/about/about.ts").toList⟩ : RouteConfig))]
    (("/nonexistent").toList) emptyContext (by decide) (by decide) (by decide)).1

/-- Definition following the spec's words for C6: the template path is the
component path with its file extension swapped for `.html` at the same
base path (the extension being the trailing `extname` segment), to be
compared with the source's `htmlPathFor`. -/
def specHtmlPath (p : List Char) : List Char :=
  if (extnameOf p).isEmpty then p ++ ((".html").toList)
  else p.take (p.length - (extnameOf p).length) ++ ((".html").toList)

/-- C6 (amended): for every matched route, the template path is computed by
replacing the first occurrence of the component path's extension substring
with `.html` (`htmlPathFor`); when that file does not exist, `render`
raises the explicit `HTML template not found for route` error — an
`Except.error`, distinguishable from route-not-found, which returns an
`Except.ok` 404 body. -/
theorem missing_template_error (fs : FS) (loader : Loader) (baseDir : List Char)
    (routes : RMap) (path : List Char) (ctx : SSRContext) (route : RouteConfig)
    (hroot : path ≠ (("/").toList)) (hempty : ¬ path.isEmpty)
    (hhit : findRoute routes path = some route)
    (hmissing : fs.fexists (htmlPathFor (joinP baseDir route.component)) = false) :
    render fs loader baseDir routes path ctx
      = Except.error ((("HTML template not found for route: ").toList) ++ route.component)
    ∧ ∀ doc, render fs loader baseDir routes path ctx ≠ Except.ok doc := by
  have hmain : render fs loader baseDir routes path ctx
      = Except.error ((("HTML template not found for route: ").toList) ++ route.component) := by
    unfold render
    rw [if_neg, hhit]
    · simp [hmissing]
    · push_neg
      exact ⟨hroot, by simpa using hempty⟩
  exact ⟨hmain, fun doc h => by rw [hmain] at h; exact Except.noConfusion h⟩

/-- Witness for `missing_template_error` at a concrete route whose
template file is absent. -/
theorem missing_template_error_witness :
    findRoute
        [((("about").toList),
          (⟨("about").toList, ("src/routes/about/about.ts").toList⟩ : RouteConfig))]
        (("/about").toList)
      = some ⟨("about").toList, ("src/routes/about/about.ts").toList⟩
    ∧ render ⟨fun _ => false, fun _ => []⟩ (fun _ => Except.ok [])
        [] [((("about").toList),
          (⟨("about").toList, ("src/routes/about/about.ts").toList⟩ : RouteConfig))]
        (("/about").toList) emptyContext
      = Except.error (("HTML template not found for route: src/routes/about/about.ts").toList) := by
  refine ⟨by decide, ?_⟩
  have h := (missing_template_error ⟨fun _ => false, fun _ => []⟩ (fun _ => Except.ok []) []
    [((("about").toList),
      (⟨("about").toList, ("src/routes/about/about.ts").toList⟩ : RouteConfig))]
    (("/about").toList) emptyContext
    ⟨("about").toList, ("src/routes/about/about.ts").toList⟩
    (by decide) (by decide) (by decide) (by decide)).1
  rw [h]
  rfl

/-- C6 (counterexample): the code resolves the template by replacing the
FIRST occurrence of the extension substring in the whole component path,
not by swapping the trailing extension.  For the discovered route
directory `x.ts` with component `src/routes/x.ts/a.ts`, the code consults
`src/routes/x.html/a.ts`; with a file system where that file exists and
the spec's swapped path `src/routes/x.ts/a.html` does not, `render`
succeeds even though the claim's template file is missing, and the two
resolution rules provably differ. -/
theorem template_swap_rule_false :
    htmlPathFor (("src/routes/x.ts/a.ts").toList)
        ≠ specHtmlPath (("src/routes/x.ts/a.ts").toList)
    ∧ (FS.mk (fun p => p = (("src/routes/x.html/a.ts").toList)) (fun _ => ("hello").toList)).fexists
        (specHtmlPath (("src/routes/x.ts/a.ts").toList)) = false
    ∧ render
        (FS.mk (fun p => p = (("src/routes/x.html/a.ts").toList)) (fun _ => ("hello").toList))
        (fun _ => Except.ok []) []
        [((("x.ts").toList),
          (⟨("x.ts").toList, ("src/routes/x.ts/a.ts").toList⟩ : RouteConfig))]
        (("/x.ts").toList) emptyContext
      = Except.ok (("hello").toList) := by
  refine ⟨by decide, by decide, ?_⟩
  rfl

/-! Helper lemmas about `splitOnChar`. -/

lemma splitOnChar_cons (sep c : Char) (cs : List Char) :
    splitOnChar sep (c :: cs)
      = (match splitOnChar sep cs with
         | [] => [[c]]
         | a :: as => if c = sep then [] :: a :: as else (c :: a) :: as) := rfl

lemma splitOnChar_ne_nil (sep : Char) (l : List Char) : splitOnChar sep l ≠ [] := by
  induction l with
  | nil => simp [splitOnChar]
  | cons c cs ih =>
    rw [splitOnChar_cons]
    cases h : splitOnChar sep cs with
    | nil => simp
    | cons a as =>
      by_cases hc : c = sep <;> simp [hc]

lemma splitOnChar_length (sep : Char) (l : List Char) :
    (splitOnChar sep l).length = l.count sep + 1 := by
  induction l with
  | nil => simp [splitOnChar]
  | cons c cs ih =>
    cases h : splitOnChar sep cs with
    | nil => exact absurd h (splitOnChar_ne_nil sep cs)
    | cons a as =>
      have hlen : (a :: as).length = cs.count sep + 1 := by rw [← h]; exact ih
      have hcons : splitOnChar sep (c :: cs)
          = if c = sep then [] :: a :: as else (c :: a) :: as := by
        rw [splitOnChar_cons, h]
      rw [hcons]
      by_cases hc : c = sep
      · subst hc
        rw [if_pos rfl]
        calc ([] :: a :: as).length = (a :: as).length + 1 := rfl
          _ = cs.count c + 1 + 1 := by rw [hlen]
          _ = (c :: cs).count c + 1 := by rw [List.count_cons_self]
      · rw [if_neg hc]
        calc ((c :: a) :: as).length = (a :: as).length := by simp
          _ = cs.count sep + 1 := hlen
          _ = (c :: cs).count sep + 1 := by
              rw [List.count_cons_of_ne (fun hcc => hc hcc.symm)]

/-- C9 (counterexample): the argument text `'a,b'` — one single-quoted
literal containing a comma — is split on the embedded comma: the function
receives the two bare-string arguments `'a` and `b'` instead of the single
argument `a,b` the claim promises. -/
theorem quoted_comma_splits_false :
    parseTemplateArgs (("\x27a,b\x27").toList) emptyContext
      = [JSVal.vStr (("\x27a").toList), JSVal.vStr (("b\x27").toList)]
    ∧ (parseTemplateArgs (("\x27a,b\x27").toList) emptyContext).length ≠ 1 := by
  constructor
  · rfl
  · decide

/-- C9 (amended): argument splitting is quote-blind — the raw argument
text is split at EVERY comma, so the number of parsed arguments is always
the comma count plus one, regardless of any quotes around or between the
commas. -/
theorem args_split_naive_count (argsStr : List Char) (ctx : SSRContext)
    (h : ¬ (trimChars argsStr).isEmpty) :
    (parseTemplateArgs argsStr ctx).length = argsStr.count ',' + 1 := by
  unfold parseTemplateArgs
  rw [if_neg (by simpa using h)]
  rw [List.length_map]
  exact splitOnChar_length ',' argsStr

/-- Witness for `args_split_naive_count` at the quoted-comma input. -/
theorem args_split_naive_count_witness :
    ¬ (trimChars (("\x27a,b\x27").toList)).isEmpty
    ∧ (parseTemplateArgs (("\x27a,b\x27").toList) emptyContext).length
        = (("\x27a,b\x27").toList).count ',' + 1 := by
  exact ⟨by decide, args_split_naive_count (("\x27a,b\x27").toList) emptyContext (by decide)⟩

/-- C4: every comma-separated argument token is classified, in order, as
quoted string (quotes stripped), numeric literal (converted to a number),
`true`/`false`, `null`/`undefined`, reserved-namespace path (resolved
against the context, `undefined` when the key is absent), and otherwise a
bare string passed through unchanged; in particular the argument text
`42, true, null, "str", query.missing` with an empty query parses to
`[42, true, null, "str", undefined]` in that order. -/
theorem parse_args_classification :
    (parseTemplateArgs (("42, true, null, \"str\", query.missing").toList) emptyContext
      = [JSVal.vNum ⟨42, 1⟩, JSVal.vBool true, JSVal.vNull,
         JSVal.vStr (("str").toList), JSVal.vUndefined])
    ∧ (∀ ctx : SSRContext, mapGet ctx.query (("missing").toList) = none →
        classifyArg ctx (("query.missing").toList) = JSVal.vUndefined)
    ∧ (∀ (ctx : SSRContext) (arg : List Char),
        (isQuotedLit (trimChars arg) = true →
          classifyArg ctx arg = JSVal.vStr (innerLit (trimChars arg)))
        ∧ (∀ q : JSNum, isQuotedLit (trimChars arg) = false →
            jsNumber (trimChars arg) = some q →
            classifyArg ctx arg = JSVal.vNum q)
        ∧ (isQuotedLit (trimChars arg) = false →
            jsNumber (trimChars arg) = none →
            trimChars arg = (("true").toList) →
            classifyArg ctx arg = JSVal.vBool true)
        ∧ (isQuotedLit (trimChars arg) = false →
            jsNumber (trimChars arg) = none →
            trimChars arg = (("false").toList) →
            classifyArg ctx arg = JSVal.vBool false)
        ∧ (isQuotedLit (trimChars arg) = false →
            jsNumber (trimChars arg) = none →
            trimChars arg = (("null").toList) →
            classifyArg ctx arg = JSVal.vNull)
        ∧ (isQuotedLit (trimChars arg) = false →
            jsNumber (trimChars arg) = none →
            trimChars arg = (("undefined").toList) →
            classifyArg ctx arg = JSVal.vUndefined)
        ∧ (isQuotedLit (trimChars arg) = false →
            jsNumber (trimChars arg) = none →
            trimChars arg ≠ (("true").toList) →
            trimChars arg ≠ (("false").toList) →
            trimChars arg ≠ (("null").toList) →
            trimChars arg ≠ (("undefined").toList) →
            ((("query.").toList <+: trimChars arg)
              ∨ (("params.").toList <+: trimChars arg)
              ∨ (("headers.").toList <+: trimChars arg)) →
            classifyArg ctx arg = evaluateExpression (trimChars arg) emptyComponent ctx)
        ∧ (isQuotedLit (trimChars arg) = false →
            jsNumber (trimChars arg) = none →
            trimChars arg ≠ (("true").toList) →
            trimChars arg ≠ (("false").toList) →
            trimChars arg ≠ (("null").toList) →
            trimChars arg ≠ (("undefined").toList) →
            ¬ (("query.").toList <+: trimChars arg) →
            ¬ (("params.").toList <+: trimChars arg) →
            ¬ (("headers.").toList <+: trimChars arg) →
            classifyArg ctx arg = JSVal.vStr (trimChars arg))) := by
  refine ⟨rfl, ?_, ?_⟩
  · intro ctx h
    have hstep : classifyArg ctx (("query.missing").toList)
        = (match mapGet ctx.query (("missing").toList) with
           | some s => JSVal.vStr s
           | none => JSVal.vUndefined) := rfl
    rw [hstep, h]
  · intro ctx arg
    refine ⟨?_, ?_, ?_, ?_, ?_, ?_, ?_, ?_⟩
    · intro hq
      simp [classifyArg, hq]
    · intro q hq hn
      simp [classifyArg, hq, hn]
    · intro hq hn he
      simp only [classifyArg]
      rw [he]
      rfl
    · intro hq hn he
      simp only [classifyArg]
      rw [he]
      rfl
    · intro hq hn he
      simp only [classifyArg]
      rw [he]
      rfl
    · intro hq hn he
      simp only [classifyArg]
      rw [he]
      rfl
    · intro hq hn h1 h2 h3 h4 hns
      have h1' : trimChars arg ≠ ['t', 'r', 'u', 'e'] := by simpa using h1
      have h2' : trimChars arg ≠ ['f', 'a', 'l', 's', 'e'] := by simpa using h2
      have h3' : trimChars arg ≠ ['n', 'u', 'l', 'l'] := by simpa using h3
      have h4' : trimChars arg ≠ ['u', 'n', 'd', 'e', 'f', 'i', 'n', 'e', 'd'] := by
        simpa using h4
      rcases hns with h | h | h
      · have h' : ['q', 'u', 'e', 'r', 'y', '.'] <+: trimChars arg := by simpa using h
        simp [classifyArg, hq, hn, h1', h2', h3', h4', h']
      · have h' : ['p', 'a', 'r', 'a', 'm', 's', '.'] <+: trimChars arg := by simpa using h
        simp [classifyArg, hq, hn, h1', h2', h3', h4', h']
      · have h' : ['h', 'e', 'a', 'd', 'e', 'r', 's', '.'] <+: trimChars arg := by
          simpa using h
        simp [classifyArg, hq, hn, h1', h2', h3', h4', h']
    · intro hq hn h1 h2 h3 h4 hb1 hb2 hb3
      have h1' : trimChars arg ≠ ['t', 'r', 'u', 'e'] := by simpa using h1
      have h2' : trimChars arg ≠ ['f', 'a', 'l', 's', 'e'] := by simpa using h2
      have h3' : trimChars arg ≠ ['n', 'u', 'l', 'l'] := by simpa using h3
      have h4' : trimChars arg ≠ ['u', 'n', 'd', 'e', 'f', 'i', 'n', 'e', 'd'] := by
        simpa using h4
      have hb1' : ¬ ['q', 'u', 'e', 'r', 'y', '.'] <+: trimChars arg := by simpa using hb1
      have hb2' : ¬ ['p', 'a', 'r', 'a', 'm', 's', '.'] <+: trimChars arg := by simpa using hb2
      have hb3' : ¬ ['h', 'e', 'a', 'd', 'e', 'r', 's', '.'] <+: trimChars arg := by
        simpa using hb3
      simp [classifyArg, hq, hn, h1', h2', h3', h4', hb1', hb2', hb3']

/-- Witness for `parse_args_classification`: its universally quantified
classification conjuncts applied at concrete tokens. -/
theorem parse_args_classification_witness :
    classifyArg emptyContext (("  42 ").toList) = JSVal.vNum ⟨42, 1⟩
    ∧ classifyArg emptyContext (("hello-world").toList)
        = JSVal.vStr (("hello-world").toList) := by
  constructor
  · exact ((parse_args_classification.2.2 emptyContext (("  42 ").toList)).2.1) ⟨42, 1⟩
      (by decide) (by decide)
  · exact ((parse_args_classification.2.2 emptyContext
      (("hello-world").toList)).2.2.2.2.2.2.2) (by decide) (by decide) (by decide)
      (by decide) (by decide) (by decide) (by decide) (by decide) (by decide)

/-- Invariant preservation of `mapSet` for a per-entry property. -/
lemma mapSet_inv {α : Type} (P : List Char × α → Prop) (m : List (List Char × α))
    (k : List Char) (v : α) (hm : ∀ p ∈ m, P p) (hkv : P (k, v)) :
    ∀ p ∈ mapSet m k v, P p := by
  intro p hp
  rcases mapSet_mem m k v p hp with h | h
  · rw [h]; exact hkv
  · exact hm p h

/-- The route-table invariant over the entries-of-one-directory loop:
every stored `RouteConfig` records exactly the key it is registered
under, because the only write is `routes.set(routePath, ⟨routePath, _⟩)`. -/
lemma scanEntries_inv (l : List FTree) (relDir pref : List Char) (routes : RMap)
    (h : ∀ p ∈ routes, p.2.path = p.1) :
    ∀ p ∈ scanEntries l relDir pref routes, p.2.path = p.1 := by
  match l with
  | [] => exact h
  | FTree.broken nm :: rest => exact h
  | FTree.file nm :: rest =>
    have hstep : scanEntries (FTree.file nm :: rest) relDir pref routes
        = scanEntries rest relDir pref routes := rfl
    rw [hstep]
    exact scanEntries_inv rest relDir pref routes h
  | FTree.dir nm children :: rest =>
    have hstep : scanEntries (FTree.dir nm children :: rest) relDir pref routes
        = scanEntries rest relDir pref
            (scanEntry (FTree.dir nm children) relDir pref routes) := rfl
    rw [hstep]
    have hentry : ∀ p ∈ scanEntry (FTree.dir nm children) relDir pref routes,
        p.2.path = p.1 := by
      have hstep2 : scanEntry (FTree.dir nm children) relDir pref routes
          = scanEntries children (joinP relDir nm)
              (if pref.isEmpty then nm else pref ++ '/' :: nm)
              (match ((children.map FTree.nameOf).filter isRouteFileName) with
               | [] => routes
               | f :: _ =>
                 mapSet routes (if pref.isEmpty then nm else pref ++ '/' :: nm)
                   ⟨if pref.isEmpty then nm else pref ++ '/' :: nm,
                     joinP (joinP relDir nm) f⟩) := rfl
      rw [hstep2]
      apply scanEntries_inv
      cases hrf : ((children.map FTree.nameOf).filter isRouteFileName) with
      | nil => exact h
      | cons f fs =>
        exact mapSet_inv _ routes _ _ h rfl
    exact scanEntries_inv rest relDir pref _ hentry

/-- C10: after route discovery, every entry of the route table satisfies
`r.path = key`: for every scanned tree and any initially-invariant table
(in particular the empty one the constructor starts from), every stored
`RouteConfig` records exactly the URL path it is registered under.  The
table is never written after construction — `render` and `findRoute` only
read it, as their explicit `routes` parameter shows — so the invariant
holds for the lifetime of the instance. -/
theorem route_table_path_key_inv (t : FTree) (relDir pref : List Char) (routes : RMap)
    (h : ∀ p ∈ routes, p.2.path = p.1) :
    ∀ p ∈ scanRoutesDirectory t relDir pref routes, p.2.path = p.1 := by
  match t with
  | FTree.file _ => exact h
  | FTree.broken _ => exact h
  | FTree.dir nm children =>
    have hstep : scanRoutesDirectory (FTree.dir nm children) relDir pref routes
        = scanEntries children relDir pref routes := rfl
    rw [hstep]
    exact scanEntries_inv children relDir pref routes h

/-- Witness for `route_table_path_key_inv` at a concrete tree: the
discovered `blog/post` entry records the path `blog/post`. -/
theorem route_table_path_key_inv_witness :
    (∀ p ∈ ([] : RMap), p.2.path = p.1)
    ∧ ∀ p ∈ scanRoutesDirectory
        (FTree.dir (("routes").toList)
          [FTree.dir (("blog").toList)
            [FTree.file (("blog.ts").toList),
             FTree.dir (("post").toList) [FTree.file (("post.ts").toList)]]])
        (("src/routes").toList) [] [], p.2.path = p.1 :=
  ⟨fun p hp => absurd hp (List.not_mem_nil p),
   route_table_path_key_inv _ (("src/routes").toList) [] []
     (fun p hp => absurd hp (List.not_mem_nil p))⟩

/-- C8 (counterexample): a broken directory entry DOES prevent its later
siblings from being discovered.  In a routes tree whose first entry is
unreadable and whose second entry is a well-formed route directory
`good`, the scan discovers nothing, while the same tree without the
broken entry yields the `good` route. -/
theorem scan_error_kills_siblings :
    scanRoutesDirectory
        (FTree.dir (("routes").toList)
          [FTree.broken (("bad").toList),
           FTree.dir (("good").toList) [FTree.file (("good.ts").toList)]])
        (("src/routes").toList) [] [] = []
    ∧ scanRoutesDirectory
        (FTree.dir (("routes").toList)
          [FTree.dir (("good").toList) [FTree.file (("good.ts").toList)]])
        (("src/routes").toList) [] []
      = [((("good").toList),
          ⟨("good").toList, ("src/routes/good/good.ts").toList⟩)] := by
  constructor
  · rfl
  · rfl

/-- C8 (amended): a read error while listing one entry of a directory is
caught at that directory's scan invocation — the scan returns normally
with the routes collected so far instead of propagating the error, so
startup survives — but the remaining sibling entries of that same
directory are skipped.  The failure never escapes the affected
invocation: a directory entry whose own listing succeeds is processed in
full even when its inside is broken, and the loop then continues with the
following siblings. -/
theorem scan_error_containment :
    (∀ (nm relDir pref : List Char) (rest : List FTree) (routes : RMap),
      scanEntries (FTree.broken nm :: rest) relDir pref routes = routes)
    ∧ (∀ (nm m relDir pref : List Char) (rest : List FTree) (routes : RMap),
        isRouteFileName m = false →
        scanEntries (FTree.dir nm [FTree.broken m] :: rest) relDir pref routes
          = scanEntries rest relDir pref routes) := by
  constructor
  · intro nm relDir pref rest routes
    rfl
  · intro nm m relDir pref rest routes hm
    have hstep : scanEntries (FTree.dir nm [FTree.broken m] :: rest) relDir pref routes
        = scanEntries rest relDir pref
            (scanEntry (FTree.dir nm [FTree.broken m]) relDir pref routes) := rfl
    rw [hstep]
    have hentry : scanEntry (FTree.dir nm [FTree.broken m]) relDir pref routes
        = routes := by
      have hstep2 : scanEntry (FTree.dir nm [FTree.broken m]) relDir pref routes
          = scanEntries [FTree.broken m] (joinP relDir nm)
              (if pref.isEmpty then nm else pref ++ '/' :: nm)
              (match ([m].filter isRouteFileName) with
               | [] => routes
               | f :: _ =>
                 mapSet routes (if pref.isEmpty then nm else pref ++ '/' :: nm)
                   ⟨if pref.isEmpty then nm else pref ++ '/' :: nm,
                     joinP (joinP relDir nm) f⟩) := rfl
      rw [hstep2]
      rw [show ([m].filter isRouteFileName) = [] from by simp [hm]]
      rfl
    rw [hentry]

/-- Witness for `scan_error_containment`: a broken entry nested inside a
readable child directory does not stop the parent loop — the following
sibling route is still discovered. -/
theorem scan_error_containment_witness :
    isRouteFileName (("inner").toList) = false
    ∧ scanEntries
        [FTree.dir (("child").toList) [FTree.broken (("inner").toList)],
         FTree.dir (("good").toList) [FTree.file (("good.ts").toList)]]
        (("src/routes").toList) [] []
      = scanEntries [FTree.dir (("good").toList) [FTree.file (("good.ts").toList)]]
        (("src/routes").toList) [] [] := by
  refine ⟨by decide, ?_⟩
  exact scan_error_containment.2 (("child").toList) (("inner").toList)
    (("src/routes").toList) []
    [FTree.dir (("good").toList) [FTree.file (("good.ts").toList)]] [] (by decide)

/-! Helper lemmas for `||`-chain splitting. -/

lemma containsSub_append_of_prefix (pre pat l : List Char)
    (h : pat.isPrefixOf l = true) : containsSub pat (pre ++ l) = true := by
  induction pre with
  | nil =>
    cases l with
    | nil =>
      have : pat = [] := by
        cases pat with
        | nil => rfl
        | cons a as => simp [List.isPrefixOf] at h
      simp [this, containsSub]
    | cons c cs => simp [containsSub, h]
  | cons c pre' ih => simp [containsSub, ih]

lemma splitOnPipes_cons (c : Char) (cs : List Char) (h : c ≠ '|') :
    splitOnPipes (c :: cs)
      = (match splitOnPipes cs with
         | [] => [[c]]
         | a :: as => (c :: a) :: as) := by
  rw [splitOnPipes.eq_def]
  split
  · rename_i heq
    exact absurd (List.cons.inj heq).1 h
  · rename_i hno heq
    obtain ⟨h1, h2⟩ := List.cons.inj heq
    subst h1
    subst h2
    rfl
  · rename_i heq
    exact absurd heq (by simp)

lemma splitOnPipes_no_pipe (l : List Char) (h : '|' ∉ l) : splitOnPipes l = [l] := by
  induction l with
  | nil => rfl
  | cons c cs ih =>
    have hc : c ≠ '|' := fun hcc => h (by simp [hcc])
    rw [splitOnPipes_cons c cs hc, ih (fun hm => h (List.mem_cons_of_mem c hm))]

lemma splitOnPipes_append_no_pipe (e1 e2 : List Char) (h : '|' ∉ e1) :
    splitOnPipes (e1 ++ '|' :: '|' :: e2) = e1 :: splitOnPipes e2 := by
  induction e1 with
  | nil => rfl
  | cons c e1' ih =>
    have hc : c ≠ '|' := fun hcc => h (by simp [hcc])
    have ih' := ih (fun hm => h (List.mem_cons_of_mem c hm))
    rw [List.cons_append, splitOnPipes_cons c _ hc, ih']

/-- C3: a top-level expression containing `||` is split on `||`, the
operands are trimmed and evaluated left to right as single expressions,
the first truthy value wins, and when every operand is falsy the LAST
operand's value is returned rather than an error; `null`, `undefined`,
the empty string, `false` and `0` are exactly the falsy values; in
particular `<p>\x7b\x7b x || \x27fallback\x27 \x7d\x7d</p>` renders
`<p>fallback</p>` when `x` is the empty string and `<p>hi</p>` when `x`
is `"hi"`. -/
theorem or_chain_first_truthy :
    (∀ (comp : Component) (ctx : SSRContext) (e1 e2 : List Char),
      '|' ∉ e1 → '|' ∉ e2 →
      evaluateExpression (e1 ++ '|' :: '|' :: e2) comp ctx
        = (if truthy (evaluateSingleExpression (trimChars e1) comp ctx) = true
           then evaluateSingleExpression (trimChars e1) comp ctx
           else evaluateSingleExpression (trimChars e2) comp ctx))
    ∧ (truthy JSVal.vNull = false ∧ truthy JSVal.vUndefined = false
        ∧ truthy (JSVal.vStr []) = false ∧ truthy (JSVal.vBool false) = false
        ∧ truthy (JSVal.vNum ⟨0, 1⟩) = false)
    ∧ processTemplate [((("x").toList), Member.val (JSVal.vStr []))] emptyContext
        (("<p>\x7b\x7b x || \x27fallback\x27 \x7d\x7d</p>").toList)
      = (("<p>fallback</p>").toList)
    ∧ processTemplate [((("x").toList), Member.val (JSVal.vStr (("hi").toList)))]
        emptyContext (("<p>\x7b\x7b x || \x27fallback\x27 \x7d\x7d</p>").toList)
      = (("<p>hi</p>").toList)
    ∧ evaluateExpression (("query.a || query.b").toList) emptyComponent emptyContext
      = JSVal.vUndefined := by
  refine ⟨?_, by decide, rfl, rfl, rfl⟩
  intro comp ctx e1 e2 h1 h2
  have hpre : (['|', '|'] : List Char).isPrefixOf ('|' :: '|' :: e2) = true := by
    simp [List.isPrefixOf]
  have hcp : containsPipes (e1 ++ '|' :: '|' :: e2) = true :=
    containsSub_append_of_prefix e1 ['|', '|'] ('|' :: '|' :: e2) hpre
  have hsplit : splitOnPipes (e1 ++ '|' :: '|' :: e2) = [e1, e2] := by
    rw [splitOnPipes_append_no_pipe e1 e2 h1, splitOnPipes_no_pipe e2 h2]
  simp only [evaluateExpression, hcp, if_true, hsplit, List.map]
  by_cases ht1 : truthy (evaluateSingleExpression (trimChars e1) comp ctx) = true
  · simp [List.find?, ht1]
  · have ht1' : truthy (evaluateSingleExpression (trimChars e1) comp ctx) = false := by
      simpa using ht1
    by_cases ht2 : truthy (evaluateSingleExpression (trimChars e2) comp ctx) = true
    · simp [List.find?, ht1', ht2]
    · have ht2' : truthy (evaluateSingleExpression (trimChars e2) comp ctx) = false := by
        simpa using ht2
      simp [List.find?, ht1', ht2', List.getLastD]

/-- Witness for `or_chain_first_truthy`: its general conjunct applied to
the claim's `x || \x27fallback\x27` expression with `x` bound to the
empty string, yielding the fallback value. -/
theorem or_chain_first_truthy_witness :
    ('|' ∉ (("x ").toList)) ∧ ('|' ∉ ((" \x27fallback\x27").toList))
    ∧ evaluateExpression ((("x ").toList) ++ '|' :: '|' :: ((" \x27fallback\x27").toList))
        [((("x").toList), Member.val (JSVal.vStr []))] emptyContext
      = JSVal.vStr (("fallback").toList) := by
  refine ⟨by decide, by decide, ?_⟩
  have h := or_chain_first_truthy.1 [((("x").toList), Member.val (JSVal.vStr []))]
    emptyContext (("x ").toList) ((" \x27fallback\x27").toList) (by decide) (by decide)
  exact h.trans (by rfl)

/-! Helper lemmas for the template-scanning loop. -/

lemma takeWhile_append_stop (p : Char → Bool) (e : List Char) (x : Char) (l : List Char)
    (he : ∀ c ∈ e, p c = true) (hx : p x = false) :
    (e ++ x :: l).takeWhile p = e := by
  induction e with
  | nil => simp [List.takeWhile_cons, hx]
  | cons c e' ih =>
    have hc := he c (by simp)
    simp [List.takeWhile_cons, hc, ih (fun d hd => he d (by simp [hd]))]

lemma dropWhile_append_stop (p : Char → Bool) (e : List Char) (x : Char) (l : List Char)
    (he : ∀ c ∈ e, p c = true) (hx : p x = false) :
    (e ++ x :: l).dropWhile p = x :: l := by
  induction e with
  | nil => simp [List.dropWhile_cons, hx]
  | cons c e' ih =>
    have hc := he c (by simp)
    simp [List.dropWhile_cons, hc, ih (fun d hd => he d (by simp [hd]))]

lemma scanExprAt_spec (e post : List Char) (hne : e ≠ []) (hnb : ∀ c ∈ e, c ≠ rbr) :
    scanExprAt (e ++ rbr :: rbr :: post) = some (e, post) := by
  obtain ⟨hd, tl, rfl⟩ := List.exists_cons_of_ne_nil hne
  have hall : ∀ c ∈ hd :: tl, (fun c => decide (c ≠ rbr)) c = true :=
    fun c hc => decide_eq_true (hnb c hc)
  have hstop : (fun c => decide (c ≠ rbr)) rbr = false := by simp
  unfold scanExprAt
  rw [takeWhile_append_stop _ _ _ _ hall hstop,
    dropWhile_append_stop _ _ _ _ hall hstop]
  rfl

lemma scanExprAt_some_length (rest e tail : List Char)
    (h : scanExprAt rest = some (e, tail)) : tail.length + 3 ≤ rest.length := by
  cases he : rest.takeWhile (fun c => decide (c ≠ rbr)) with
  | nil =>
    unfold scanExprAt at h
    rw [he] at h
    exact absurd h (by simp)
  | cons hd tl =>
    cases hr : rest.dropWhile (fun c => decide (c ≠ rbr)) with
    | nil =>
      unfold scanExprAt at h
      rw [he, hr] at h
      exact absurd h (by simp)
    | cons b1 r1 =>
      cases r1 with
      | nil =>
        unfold scanExprAt at h
        rw [he, hr] at h
        exact absurd h (by simp)
      | cons b2 tail' =>
        have hcalc : scanExprAt rest = if b2 = rbr then some (hd :: tl, tail') else none := by
          unfold scanExprAt
          rw [he, hr]
        rw [hcalc] at h
        have hjoin : (hd :: tl) ++ (b1 :: b2 :: tail') = rest := by
          rw [← he, ← hr]
          exact List.takeWhile_append_dropWhile _ _
        have hlen : (hd :: tl).length + (b1 :: b2 :: tail').length = rest.length := by
          rw [← List.length_append, hjoin]
        by_cases hb : b2 = rbr
        · rw [if_pos hb] at h
          obtain ⟨h1, h2⟩ := Prod.mk.inj (Option.some.inj h)
          subst h2
          simp only [List.length_cons] at hlen
          omega
        · rw [if_neg hb] at h
          exact absurd h (by simp)

lemma ptF_nil (comp : Component) (ctx : SSRContext) (f : Nat) :
    processTemplateF comp ctx f [] = [] := by
  cases f with
  | zero => rfl
  | succ g => rfl

lemma ptF_unit (comp : Component) (ctx : SSRContext) (f : Nat) (rest e tail : List Char)
    (hscan : scanExprAt rest = some (e, tail)) :
    processTemplateF comp ctx (f + 1) (lbr :: lbr :: rest)
      = evalUnit comp ctx e ++ processTemplateF comp ctx f tail := by
  have hstep : processTemplateF comp ctx (f + 1) (lbr :: lbr :: rest)
      = (match scanExprAt rest with
         | some (e, tail) => evalUnit comp ctx e ++ processTemplateF comp ctx f tail
         | none => lbr :: processTemplateF comp ctx f (lbr :: rest)) := rfl
  rw [hstep, hscan]

lemma ptF_cons (comp : Component) (ctx : SSRContext) (f : Nat) (c : Char)
    (cs : List Char) (h : c ≠ lbr) :
    processTemplateF comp ctx (f + 1) (c :: cs) = c :: processTemplateF comp ctx f cs := by
  rw [processTemplateF.eq_def]
  split
  · omega
  · rename_i heq1 heq2
    exact absurd ((List.cons.inj heq2).1) (by simpa [lbr] using h)
  · rename_i heq1 heq2
    obtain ⟨h1, h2⟩ := List.cons.inj heq2
    obtain rfl : f = _ := Nat.succ.inj heq1
    subst h1
    subst h2
    rfl
  · rename_i heq1 heq2
    exact absurd heq2 (by simp)

lemma ptF_brace_cons (comp : Component) (ctx : SSRContext) (f : Nat) (cs : List Char)
    (h : cs.head? ≠ some lbr) :
    processTemplateF comp ctx (f + 1) (lbr :: cs)
      = lbr :: processTemplateF comp ctx f cs := by
  rw [processTemplateF.eq_def]
  split
  · omega
  · rename_i heq1 heq2
    have h2 := (List.cons.inj heq2).2
    exact absurd (by rw [h2]; rfl) h
  · rename_i heq1 heq2
    obtain ⟨h1, h2⟩ := List.cons.inj heq2
    obtain rfl : f = _ := Nat.succ.inj heq1
    subst h2
    rw [← h1]
  · rename_i heq1 heq2
    exact absurd heq2 (by simp)

lemma ptF_unit_fail (comp : Component) (ctx : SSRContext) (f : Nat) (rest : List Char)
    (hscan : scanExprAt rest = none) :
    processTemplateF comp ctx (f + 1) (lbr :: lbr :: rest)
      = lbr :: processTemplateF comp ctx f (lbr :: rest) := by
  have hstep : processTemplateF comp ctx (f + 1) (lbr :: lbr :: rest)
      = (match scanExprAt rest with
         | some (e, tail) => evalUnit comp ctx e ++ processTemplateF comp ctx f tail
         | none => lbr :: processTemplateF comp ctx f (lbr :: rest)) := rfl
  rw [hstep, hscan]

lemma ptF_fuel_irrel (comp : Component) (ctx : SSRContext) :
    ∀ (f1 f2 : Nat) (l : List Char), l.length ≤ f1 → l.length ≤ f2 →
      processTemplateF comp ctx f1 l = processTemplateF comp ctx f2 l := by
  intro f1
  induction f1 with
  | zero =>
    intro f2 l h1 h2
    have : l = [] := List.length_eq_zero.mp (Nat.le_zero.mp h1)
    subst this
    rw [ptF_nil, ptF_nil]
  | succ g ih =>
    intro f2 l h1 h2
    cases l with
    | nil => rw [ptF_nil, ptF_nil]
    | cons c cs =>
      cases f2 with
      | zero => exact absurd h2 (by simp)
      | succ g2 =>
        by_cases hc : c = lbr
        · subst hc
          cases cs with
          | nil =>
            rw [ptF_brace_cons comp ctx g [] (by simp),
              ptF_brace_cons comp ctx g2 [] (by simp), ptF_nil, ptF_nil]
          | cons c2 cs2 =>
            by_cases hc2 : c2 = lbr
            · subst hc2
              cases hscan : scanExprAt cs2 with
              | some p =>
                obtain ⟨e, tail⟩ := p
                rw [ptF_unit comp ctx g cs2 e tail hscan,
                  ptF_unit comp ctx g2 cs2 e tail hscan]
                have hlt := scanExprAt_some_length cs2 e tail hscan
                rw [ih g2 tail (by simp at h1; omega) (by simp at h2; omega)]
              | none =>
                rw [ptF_unit_fail comp ctx g cs2 hscan,
                  ptF_unit_fail comp ctx g2 cs2 hscan,
                  ih g2 (lbr :: cs2) (by simp at h1 ⊢; omega) (by simp at h2 ⊢; omega)]
            · rw [ptF_brace_cons comp ctx g (c2 :: cs2) (by simpa using hc2),
                ptF_brace_cons comp ctx g2 (c2 :: cs2) (by simpa using hc2),
                ih g2 (c2 :: cs2) (by simp at h1 ⊢; omega) (by simp at h2 ⊢; omega)]
        · rw [ptF_cons comp ctx g c cs hc, ptF_cons comp ctx g2 c cs hc,
            ih g2 cs (by simp at h1; omega) (by simp at h2; omega)]

lemma ptF_no_brace_pre (comp : Component) (ctx : SSRContext) (pre : List Char) :
    ∀ (f : Nat) (rest : List Char), lbr ∉ pre → (pre ++ rest).length ≤ f →
      processTemplateF comp ctx f (pre ++ rest)
        = pre ++ processTemplateF comp ctx (f - pre.length) rest := by
  induction pre with
  | nil =>
    intro f rest _ _
    simp
  | cons c pre' ih =>
    intro f rest hnb hlen
    cases f with
    | zero =>
      exact absurd hlen (by simp)
    | succ g =>
      have hc : c ≠ lbr := fun h => hnb (by simp [h])
      rw [List.cons_append, ptF_cons comp ctx g c (pre' ++ rest) hc,
        ih g rest (fun hm => hnb (List.mem_cons_of_mem c hm))
          (by simp at hlen ⊢; omega)]
      simp [Nat.succ_sub_succ]

/-- The localization property of the scanning loop: a prefix free of
opening braces is copied verbatim, the first expression unit is evaluated
by `evalUnit`, and the remainder of the template is processed
independently. -/
lemma processTemplate_split (comp : Component) (ctx : SSRContext)
    (pre e post : List Char) (hpre : lbr ∉ pre) (hne : e ≠ [])
    (hnb : ∀ c ∈ e, c ≠ rbr) :
    processTemplate comp ctx (pre ++ lbr :: lbr :: (e ++ rbr :: rbr :: post))
      = pre ++ evalUnit comp ctx e ++ processTemplate comp ctx post := by
  unfold processTemplate
  rw [ptF_no_brace_pre comp ctx pre _ _ hpre (le_refl _)]
  have hf : (pre ++ lbr :: lbr :: (e ++ rbr :: rbr :: post)).length - pre.length
      = (e ++ rbr :: rbr :: post).length + 1 + 1 := by
    simp
  rw [hf, ptF_unit comp ctx _ _ e post (scanExprAt_spec e post hne hnb),
    ptF_fuel_irrel comp ctx ((e ++ rbr :: rbr :: post).length + 1) post.length post
      (by simp; omega) (le_refl _)]
  simp

/-- C1: an exception raised while evaluating one `\x7b\x7b ... \x7d\x7d`
unit — here, the matched component function `f` throwing on its parsed
arguments — is caught for that unit only: the unit's literal original
text `\x7b\x7b e \x7d\x7d` appears verbatim in the output, the template
text before it is preserved unchanged, and the rest of the template
(including every further expression unit) is still processed normally. -/
theorem expr_failure_localized (comp : Component) (ctx : SSRContext)
    (pre e post name argsStr : List Char)
    (f : List JSVal → SSRContext → Option JSVal)
    (hpre : lbr ∉ pre) (hne : e ≠ []) (hnb : ∀ c ∈ e, c ≠ rbr)
    (hfm : funcMatch (trimChars e) = some (name, argsStr))
    (hfn : mapGet comp name = some (Member.fn f))
    (hthrow : f (if argsStr.isEmpty then [] else parseTemplateArgs argsStr ctx) ctx
      = none) :
    processTemplate comp ctx (pre ++ lbr :: lbr :: (e ++ rbr :: rbr :: post))
      = pre ++ (lbr :: lbr :: (e ++ [rbr, rbr])) ++ processTemplate comp ctx post := by
  rw [processTemplate_split comp ctx pre e post hpre hne hnb]
  have hunit : evalUnit comp ctx e = matchZero e := by
    simp only [evalUnit, hfm, hfn, hthrow]
  rw [hunit]
  rfl

/-- Witness for `expr_failure_localized`: with an exported `boom` that
throws and an exported `ok` that renders, the template
`A\x7b\x7b boom() \x7d\x7dB\x7b\x7b ok() \x7d\x7dC` keeps the failing
unit verbatim while the rest of the page still renders. -/
theorem expr_failure_localized_witness :
    funcMatch (trimChars ((" boom() ").toList))
      = some ((("boom").toList), [])
    ∧ mapGet
        [((("boom").toList), Member.fn (fun _ _ => none)),
         ((("ok").toList), Member.fn (fun _ _ => some (JSVal.vStr (("OK").toList))))]
        (("boom").toList)
      = some (Member.fn (fun _ _ => none))
    ∧ processTemplate
        [((("boom").toList), Member.fn (fun _ _ => none)),
         ((("ok").toList), Member.fn (fun _ _ => some (JSVal.vStr (("OK").toList))))]
        emptyContext
        ((("A").toList) ++ lbr :: lbr :: (((" boom() ").toList)
          ++ rbr :: rbr :: (("B\x7b\x7b ok() \x7d\x7dC").toList)))
      = (("A\x7b\x7b boom() \x7d\x7dBOKC").toList) := by
  refine ⟨by decide, rfl, ?_⟩
  have h := expr_failure_localized
    [((("boom").toList), Member.fn (fun _ _ => none)),
     ((("ok").toList), Member.fn (fun _ _ => some (JSVal.vStr (("OK").toList))))]
    emptyContext (("A").toList) ((" boom() ").toList)
    (("B\x7b\x7b ok() \x7d\x7dC").toList) (("boom").toList) []
    (fun _ _ => none) (by decide) (by decide) (by decide) (by decide) rfl rfl
  exact h.trans (by rfl)

end Zyte
